import Mathlib

/-!
Verification of the file-selection and context-budgeting pipeline of the
`mass` repository (Python sources under `src/llm/`).

Python strings are modelled as `List Char`; machine integers as `Nat`
(Python ints are unbounded, so no overflow modelling is needed).
Each definition below is a direct transcription of the corresponding
Python function, keeping the source's control flow and names.
-/

set_option maxHeartbeats 1000000
set_option linter.unusedVariables false

/-- Python `str.strip()` / regex `\s` whitespace over the ASCII range
(space, tab, newline, carriage return, vertical tab, form feed). -/
def isPySpace (c : Char) : Bool :=
  c = ' ' || c = '\t' || c = '\n' || c = '\r' || c = '\x0b' || c = '\x0c'

/-- Python `str.strip()`: drop leading and trailing whitespace. -/
def stripWs (l : List Char) : List Char :=
  ((l.dropWhile isPySpace).reverse.dropWhile isPySpace).reverse

/-- `startsWithL h p` is Python `h.startswith(p)` on the char-list model. -/
def startsWithL : List Char → List Char → Bool
  | _, [] => true
  | [], _ :: _ => false
  | x :: xs, y :: ys => x = y && startsWithL xs ys

/-- Python `split(':', 1)` combined with the `':' in s` guard from
`_truncate_files_to_token_budget`: `some (before, after)` splits at the
first colon; `none` when the string has no colon. -/
def splitFirstColon : List Char → Option (List Char × List Char)
  | [] => none
  | c :: cs =>
    if c = ':' then some ([], cs)
    else
      match splitFirstColon cs with
      | none => none
      | some (a, b) => some (c :: a, b)

/-- `src/llm/agent.py` `_estimate_tokens`: `len(text) // 3`. -/
def _estimate_tokens (text : List Char) : Nat := text.length / 3

/-- The middle truncation marker of `_truncate_files_to_token_budget`:
`f"\n\n... [Content truncated - {len(content)} total chars] ...\n\n"`. -/
def truncMarkerMid (n : Nat) : List Char :=
  "\n\n... [Content truncated - ".toList ++ (Nat.repr n).toList
    ++ " total chars] ...\n\n".toList

/-- The tail truncation marker of `_truncate_files_to_token_budget`:
`f"\n... [Content truncated - {len(content)} total chars]"`. -/
def truncMarkerEnd (n : Nat) : List Char :=
  "\n... [Content truncated - ".toList ++ (Nat.repr n).toList
    ++ " total chars]".toList

/-- The loop of `src/llm/agent.py` `_truncate_files_to_token_budget`
(lines 235-274), with the running `total_tokens` as an explicit argument.
`int(chars_to_keep * 0.8)` and `int(chars_to_keep * 0.2)` are modelled as
`chars_to_keep * 4 / 5` and `chars_to_keep / 5`: for every
`chars_to_keep < 2 ^ 47` the CPython double computation produces exactly
these floors, because the fractional part of `c * 4 / 5` is a multiple of
`1 / 5` and the rounding error of double multiplication is far smaller.
Python `content[-keep_end:]` is modelled as `content.drop (len - keep_end)`;
the two agree whenever `0 < keep_end`, which holds in the only branch that
uses it (`keep_end = chars_to_keep / 5 ≥ 200` there). -/
def truncGo (budget : Nat) : List (List Char) → Nat → List (List Char)
  | [], _ => []
  | e :: rest, total =>
    match splitFirstColon e with
    | none => truncGo budget rest total
    | some (filename, content) =>
      let content_tokens := _estimate_tokens content
      if total + content_tokens ≤ budget then
        e :: truncGo budget rest (total + content_tokens)
      else
        let remaining := budget - total
        if 100 < remaining then
          let chars_to_keep := remaining * 3
          let truncated_content :=
            if chars_to_keep < content.length then
              if 1000 < chars_to_keep then
                content.take (chars_to_keep * 4 / 5)
                  ++ truncMarkerMid content.length
                  ++ content.drop (content.length - chars_to_keep / 5)
              else
                content.take chars_to_keep ++ truncMarkerEnd content.length
            else content
          [filename ++ ':' :: truncated_content]
        else []

/-- `src/llm/agent.py` `_truncate_files_to_token_budget` (lines 228-277). -/
def _truncate_files_to_token_budget (file_contents : List (List Char))
    (token_budget : Nat) : List (List Char) :=
  truncGo token_budget file_contents 0

/-- Estimated tokens of the content part (text after the first colon) of one
`"path:content"` entry; `0` for a separator-less entry. -/
def tokensOfEntry (e : List Char) : Nat :=
  match splitFirstColon e with
  | some (_, c) => _estimate_tokens c
  | none => 0

/-- Total estimated tokens of the content parts of a list of entries. -/
def sumTokens (l : List (List Char)) : Nat := (l.map tokensOfEntry).sum

/-- Decimal-digit count of the length of an entry's content part (the
number inserted into the truncation marker). -/
def contentDigits (e : List Char) : Nat :=
  match splitFirstColon e with
  | some (_, c) => (Nat.repr c.length).length
  | none => 0

/-- The largest decimal-digit count among the content parts of a list of
entries. -/
def maxContentDigits (l : List (List Char)) : Nat :=
  (l.map contentDigits).foldr max 0

/-- An entry contains the path/content separator. -/
def hasColon (e : List Char) : Bool := (splitFirstColon e).isSome

/-- Index of the first occurrence of a triple backtick in a char list
(`none` when there is no occurrence). -/
def firstTicksIdx : List Char → Option Nat
  | [] => none
  | c :: rest =>
    if startsWithL (c :: rest) ("```".toList) then some 0
    else
      match firstTicksIdx rest with
      | some k => some (k + 1)
      | none => none

/-- Consume an optional case-insensitive `json` tag (the `(?:json)?` part of
the fence regex). -/
def consumeJsonTag (r : List Char) : List Char :=
  match r with
  | a :: b :: c :: d :: rest =>
    if a.toLower = 'j' && b.toLower = 's' && c.toLower = 'o' && d.toLower = 'n'
    then rest else a :: b :: c :: d :: rest
  | _ => r

/-- Attempt of the fence regex `(?:json)?\s*\n?(.*?)\n?` + closing backticks
at a fixed position, on the text `r` that follows an opening triple
backtick: the optional tag and greedy whitespace are consumed, then the
lazy group extends to the first closing triple backtick, giving back a
final newline to the `\n?` before it.  Returns the group-1 capture. -/
def fenceCaptureAt (r : List Char) : Option (List Char) :=
  let r2 := (consumeJsonTag r).dropWhile isPySpace
  match firstTicksIdx r2 with
  | none => none
  | some k =>
    if h : 1 ≤ k ∧ k - 1 < r2.length then
      if r2.get ⟨k - 1, h.2⟩ = '\n' then some (r2.take (k - 1))
      else some (r2.take k)
    else some (r2.take k)

/-- Group-1 capture of the first match of the fence regex
`(?:triple backtick)(?:json)?\s*\n?(.*?)\n?(?:triple backtick)` with
`re.DOTALL | re.IGNORECASE`, scanning match start positions left to right
as `re.findall` does. -/
def firstFenceCapture : List Char → Option (List Char)
  | [] => none
  | c :: rest =>
    if startsWithL (c :: rest) ("```".toList) then
      match fenceCaptureAt (rest.drop 2) with
      | some cap => some cap
      | none => firstFenceCapture rest
    else firstFenceCapture rest

/-- Prefix of `l` up to and including the last occurrence of `ch`
(used for the greedy `.*` of the JSON-span regex). -/
def takeUpToLast (ch : Char) (l : List Char) : List Char :=
  (l.reverse.dropWhile (fun c => c ≠ ch)).reverse

/-- First match of the regex `(\x7b.*\x7d|\[.*\])` with `re.DOTALL`: the
leftmost position holding `\x7b` with a later `\x7d` (or `[` with a later
`]`), extended greedily to the last such closer. -/
def firstJsonSpan : List Char → Option (List Char)
  | [] => none
  | c :: rest =>
    if c = '{' ∧ '}' ∈ rest then some ('{' :: takeUpToLast '}' rest)
    else if c = '[' ∧ ']' ∈ rest then some ('[' :: takeUpToLast ']' rest)
    else firstJsonSpan rest

/-- Python `endswith` on the char-list model. -/
def endsWithL (s p : List Char) : Bool := startsWithL s.reverse p.reverse

/-- The `cleaned` local variable of `_clean_json_response`
(`src/llm/agent.py` lines 62-90): fenced-block capture first, JSON-like
span second, and the simple strip-and-unfence fallback last. -/
def cleanedContent (response_text : List Char) : List Char :=
  match firstFenceCapture response_text with
  | some cap => stripWs cap
  | none =>
    match firstJsonSpan response_text with
    | some span => stripWs span
    | none =>
      let c0 := stripWs response_text
      let c1 :=
        if startsWithL c0 ("```json".toList) then c0.drop 7
        else if startsWithL c0 ("```".toList) then c0.drop 3
        else c0
      let c2 := if endsWithL c1 ("```".toList) then c1.take (c1.length - 3) else c1
      stripWs c2

/-- `src/llm/agent.py` `_clean_json_response` (lines 53-96).  The Python
`raise ValueError(...)` statements become `Except.error`; everything else
is a direct transcription (the two `re.findall` calls are modelled by the
first-match functions above, which were differentially validated against
CPython `re`). -/
def _clean_json_response (response_text : List Char) : Except String (List Char) :=
  if response_text = [] then Except.error "Empty response from LLM"
  else
    let cleaned := cleanedContent response_text
    if cleaned = [] then Except.error "Empty content after cleaning LLM response"
    else Except.ok cleaned

/-- Python `file_path.split('.')[-1]`: the text after the last dot (the
whole path when it has no dot). -/
def lastDotPart (p : List Char) : List Char :=
  (p.reverse.takeWhile (fun c => c ≠ '.')).reverse

/-- Extension key used by `detect_languages_from_files`:
`file_path.split('.')[-1].lower()`. -/
def extOf (p : List Char) : List Char := (lastDotPart p).map Char.toLower

/-- The `elif` chain inside `src/llm/main.py` `detect_languages_from_files`
(lines 78-84), applied to one file path. -/
def classifyLang (p : List Char) : Option (List Char) :=
  let ext := extOf p
  if ext = "js".toList ∨ ext = "jsx".toList ∨ ext = "mjs".toList then
    some ("JavaScript".toList)
  else if ext = "ts".toList ∨ ext = "tsx".toList then some ("TypeScript".toList)
  else if ext = "py".toList then some ("Python".toList)
  else if ext = "rs".toList then some ("Rust".toList)
  else if ext = "go".toList then some ("Go".toList)
  else if ext = "java".toList then some ("Java".toList)
  else none

/-- `src/llm/main.py` `detect_languages_from_files` (lines 74-85): the set
of language tags of the given paths.  CPython builds a `set`, whose
iteration order is unspecified; a `Finset` models it faithfully. -/
def detect_languages_from_files (files : List (List Char)) : Finset (List Char) :=
  (files.filterMap classifyLang).toFinset

/-- The extension→language table of the spec's Language Classifier (§4.1 /
claim C8), amended to the table the code actually implements: looked up as
an association list.  Used to compare `classifyLang` against the spec's
table formulation. -/
def specLanguageTable : List (List Char × List Char) :=
  [("js".toList, "JavaScript".toList), ("jsx".toList, "JavaScript".toList),
   ("mjs".toList, "JavaScript".toList), ("ts".toList, "TypeScript".toList),
   ("tsx".toList, "TypeScript".toList), ("py".toList, "Python".toList),
   ("rs".toList, "Rust".toList), ("go".toList, "Go".toList),
   ("java".toList, "Java".toList)]

/-- Python substring test `pat in hay` on the char-list model. -/
def containsSub (hay pat : List Char) : Bool :=
  if startsWithL hay pat then true
  else
    match hay with
    | [] => false
    | _ :: t => containsSub t pat

/-- The `important_patterns` list of `_fallback_file_selection`
(`src/llm/agent.py` lines 185-190). -/
def importantPatterns : List (List Char) :=
  ["package.json", "Cargo.toml", "pyproject.toml", "requirements.txt",
   "go.mod", "pom.xml", "build.gradle", "composer.json",
   "Dockerfile", "docker-compose.yml", ".env.example",
   "README.md", "README.txt"].map String.toList

/-- The `entry_patterns` list of `_fallback_file_selection`
(`src/llm/agent.py` line 213). -/
def entryPatterns : List (List Char) :=
  ["main.", "index.", "app.", "server."].map String.toList

/-- Python `split('\n')` (keeps empty parts). -/
def splitOnNl : List Char → List (List Char)
  | [] => [[]]
  | c :: rest =>
    if c = '\n' then [] :: splitOnNl rest
    else
      match splitOnNl rest with
      | [] => [[c]]
      | p :: ps => (c :: p) :: ps

/-- `line.startswith(c)` for a single character. -/
def startsWithChar (l : List Char) (c : Char) : Bool :=
  match l with
  | [] => false
  | x :: _ => x = c

/-- The part of `line` after the last left-to-right non-overlapping
occurrence of the two-character separator `──` (Python
`line.split('──')[-1]`); `none` when `'──' in line` is false. -/
def afterLastDash : List Char → Option (List Char)
  | [] => none
  | [_] => none
  | a :: b :: rest =>
    if a = '─' ∧ b = '─' then
      some (match afterLastDash rest with
            | some r => r
            | none => rest)
    else afterLastDash (b :: rest)

/-- The body of the per-line file extraction of `_fallback_file_selection`
(`src/llm/agent.py` lines 194-203): the filename appended for one raw line,
if any.  A line is skipped (`continue`) when it is non-empty after
stripping and starts with none of `├`, `└`, `│`. -/
def lineFile (rawline : List Char) : Option (List Char) :=
  let line := stripWs rawline
  if line ≠ [] ∧ ¬ startsWithChar line '├' ∧ ¬ startsWithChar line '└'
      ∧ ¬ startsWithChar line '│' then none
  else
    match afterLastDash line with
    | some r =>
      let filename := stripWs r
      if filename ≠ [] ∧ ¬ endsWithL filename ("/".toList) then some filename
      else none
    | none => none

/-- `src/llm/agent.py` `_fallback_file_selection` (lines 181-219).  Python's
`list(set(selected))` has unspecified order; `List.dedup` models one order
(the claims proved about it — length and duplicate-freedom — are
order-independent).  The `analysis` argument is unused, as in the source. -/
def _fallback_file_selection (tree_structure : List Char)
    (analysis : List (List Char × List Char)) : List (List Char) :=
  let files := (splitOnNl tree_structure).filterMap lineFile
  let selected :=
    importantPatterns.flatMap (fun pat => files.filter (fun f => containsSub f pat))
      ++ entryPatterns.flatMap (fun pat => files.filter (fun f => startsWithL f pat))
  selected.dedup.take 20

/-- Decoded JSON values as far as the file-selection shape check observes
them: strings, arrays, and everything else. -/
inductive PyJson where
  | str (s : List Char)
  | arr (l : List PyJson)
  | other

/-- `isinstance(selected_files, list) and all(isinstance(f, str) ...)`:
the decoded value as a list of strings, when it has that shape. -/
def asStringList : PyJson → Option (List (List Char))
  | PyJson.arr l =>
    l.foldr (fun j acc =>
      match j, acc with
      | PyJson.str s, some t => some (s :: t)
      | _, _ => none) (some [])
  | _ => none

/-- `src/llm/agent.py` `select_important_files` (lines 98-179), with the
network call abstracted: `llmResponse` is the message content the
completions call produced (`none` for a null content field) and
`jsonLoads` is `json.loads` returning `none` on a decode failure.  Every
`raise` inside the `try` block lands in the `except` handler, which
returns `_fallback_file_selection` — each raising path is therefore
transcribed directly as that fallback value. -/
def select_important_files (llmResponse : Option (List Char))
    (jsonLoads : List Char → Option PyJson) (tree_structure : List Char)
    (analysis : List (List Char × List Char)) : List (List Char) :=
  match llmResponse with
  | none => _fallback_file_selection tree_structure analysis
  | some raw =>
    if raw = [] then _fallback_file_selection tree_structure analysis
    else
      match _clean_json_response raw with
      | Except.error _ => _fallback_file_selection tree_structure analysis
      | Except.ok cleaned =>
        match jsonLoads cleaned with
        | none => _fallback_file_selection tree_structure analysis
        | some j =>
          match asStringList j with
          | some selected_files => selected_files
          | none => _fallback_file_selection tree_structure analysis

/-- Modelled from the spec: the recognized Dockerfile instruction keywords
of `extractDockerfile` (§4.6).  The line-oriented Dockerfile extractor is
not part of the Python sources under `src/` — the Python call site
(`generate_dockerfile_for_repository`, `src/llm/agent.py` lines 654-666)
only strips a surrounding markdown fence — so the extractor is modelled
from the spec's words. -/
def dockerInstrKeywords : List (List Char) :=
  ["FROM", "RUN", "COPY", "ADD", "WORKDIR", "EXPOSE", "CMD", "ENTRYPOINT",
   "ENV", "ARG", "LABEL", "USER", "VOLUME", "HEALTHCHECK"].map String.toList

/-- Modelled from the spec: the known explanatory phrases skipped before
content capture begins (§4.6 names "here is" and "this dockerfile"). -/
def explanPhrases : List (List Char) :=
  ["here is", "this dockerfile"].map String.toList

/-- Modelled from the spec: the trailing-explanation phrases that stop
capture (§4.6 names "to build", "note:", "you can"). -/
def stopPhrases : List (List Char) :=
  ["to build", "note:", "you can"].map String.toList

/-- Lower-cased copy of a line, for case-insensitive phrase search. -/
def lowerL (l : List Char) : List Char := l.map Char.toLower

/-- A fenced-code-block delimiter line (trimmed form starts with a triple
backtick). -/
def isFenceLine (line : List Char) : Bool :=
  startsWithL (stripWs line) ("```".toList)

/-- The line contains a known explanatory phrase (case-insensitive). -/
def lineHasExplan (line : List Char) : Bool :=
  explanPhrases.any (fun p => containsSub (lowerL line) p)

/-- The line's trimmed form starts with a recognized Dockerfile
instruction keyword. -/
def lineStartsInstr (line : List Char) : Bool :=
  dockerInstrKeywords.any (fun k => startsWithL (stripWs line) k)

/-- The line is a comment line (trimmed form starts with `#`). -/
def lineIsComment (line : List Char) : Bool := startsWithChar (stripWs line) '#'

/-- The line contains a recognized trailing-explanation phrase
(case-insensitive). -/
def lineHasStop (line : List Char) : Bool :=
  stopPhrases.any (fun p => containsSub (lowerL line) p)

/-- Modelled from the spec: the line-oriented filter at the heart of
`extractDockerfile` (§4.6).  Before capture begins (`capturing = false`):
fence delimiter lines are skipped, lines containing explanatory phrases
are skipped, and capture begins at the first line whose trimmed form
starts with an instruction keyword.  After capture begins: fence lines are
skipped, and a non-comment line containing a trailing-explanation phrase
truncates the output. -/
def dockerCaptureGo : Bool → List (List Char) → List (List Char)
  | _, [] => []
  | false, line :: rest =>
    if isFenceLine line then dockerCaptureGo false rest
    else if lineHasExplan line then dockerCaptureGo false rest
    else if lineStartsInstr line then line :: dockerCaptureGo true rest
    else dockerCaptureGo false rest
  | true, line :: rest =>
    if isFenceLine line then dockerCaptureGo true rest
    else if ¬ lineIsComment line ∧ lineHasStop line then []
    else line :: dockerCaptureGo true rest

/-- Join lines with newlines (inverse of `splitOnNl` up to empty tails). -/
def joinNl : List (List Char) → List Char
  | [] => []
  | [l] => l
  | l :: rest => l ++ '\n' :: joinNl rest

/-- Modelled from the spec: fallback (b) of `extractDockerfile` (§4.6) — a
block from the first line starting with `FROM ` through the next blank
line. -/
def fromBlock : List (List Char) → Option (List (List Char))
  | [] => none
  | line :: rest =>
    if startsWithL (stripWs line) ("FROM ".toList) then
      some (line :: rest.takeWhile (fun l => stripWs l ≠ []))
    else fromBlock rest

/-- Modelled from the spec: fallback (a) of `extractDockerfile` (§4.6) — the
inner content of a fenced block tagged `dockerfile` or `docker`. -/
def taggedFenceCapture : List Char → Option (List Char)
  | [] => none
  | c :: rest =>
    if startsWithL (c :: rest) ("```dockerfile".toList) then
      match firstTicksIdx ((c :: rest).drop 13) with
      | some k => some (((c :: rest).drop 13).take k)
      | none => taggedFenceCapture rest
    else if startsWithL (c :: rest) ("```docker".toList) then
      match firstTicksIdx ((c :: rest).drop 9) with
      | some k => some (((c :: rest).drop 9).take k)
      | none => taggedFenceCapture rest
    else taggedFenceCapture rest

/-- Modelled from the spec: `extractDockerfile(text)` (§4.6).  The primary
path runs the line filter; when no instruction-keyword line was captured
at all, fallback (a) then (b) applies; the spec leaves the result
unspecified when every fallback fails, modelled as the empty string.
Output is the joined captured lines, trimmed. -/
def extractDockerfile (text : List Char) : List Char :=
  let ls := splitOnNl text
  let captured := dockerCaptureGo false ls
  if captured ≠ [] then stripWs (joinNl captured)
  else
    match taggedFenceCapture text with
    | some b => stripWs b
    | none =>
      match fromBlock ls with
      | some b => stripWs (joinNl b)
      | none => []

/-!
## Helper lemmas
-/

theorem splitFirstColon_no_colon : ∀ {e f c : List Char},
    splitFirstColon e = some (f, c) → ':' ∉ f := by
  intro e
  induction e with
  | nil => intro f c h; simp [splitFirstColon] at h
  | cons x xs ih =>
    intro f c h
    by_cases hx : x = ':'
    · simp [splitFirstColon, hx] at h
      rw [h.1]
      simp
    · simp only [splitFirstColon, if_neg hx] at h
      cases hs : splitFirstColon xs with
      | none => rw [hs] at h; simp at h
      | some ab =>
        obtain ⟨a, b⟩ := ab
        rw [hs] at h
        simp only [Option.some.injEq, Prod.mk.injEq] at h
        rw [← h.1]
        intro hmem
        rcases List.mem_cons.mp hmem with h1 | h2
        · exact hx h1.symm
        · exact ih hs h2

theorem splitFirstColon_mk : ∀ {f : List Char} (c : List Char), ':' ∉ f →
    splitFirstColon (f ++ ':' :: c) = some (f, c) := by
  intro f
  induction f with
  | nil => intro c _; simp [splitFirstColon]
  | cons x xs ih =>
    intro c hf
    have hx : x ≠ ':' := fun h => hf (by rw [h]; exact List.mem_cons_self _ _)
    have hxs : ':' ∉ xs := fun h => hf (List.mem_cons_of_mem _ h)
    simp only [List.cons_append, splitFirstColon, if_neg hx]
    rw [show xs.append (':' :: c) = xs ++ ':' :: c from rfl, ih c hxs]

theorem tokensOfEntry_mk (f c : List Char) (hf : ':' ∉ f) :
    tokensOfEntry (f ++ ':' :: c) = c.length / 3 := by
  simp [tokensOfEntry, splitFirstColon_mk c hf, _estimate_tokens]

theorem truncMarkerMid_length (n : Nat) :
    (truncMarkerMid n).length = 46 + (Nat.repr n).length := by
  have h1 : ("\n\n... [Content truncated - ".toList).length = 27 := rfl
  have h2 : (" total chars] ...\n\n".toList).length = 19 := rfl
  have h3 : (Nat.repr n).toList.length = (Nat.repr n).length := rfl
  simp only [truncMarkerMid, List.length_append, h1, h2, h3]
  omega

theorem truncMarkerEnd_length (n : Nat) :
    (truncMarkerEnd n).length = 39 + (Nat.repr n).length := by
  have h1 : ("\n... [Content truncated - ".toList).length = 26 := rfl
  have h2 : (" total chars]".toList).length = 13 := rfl
  have h3 : (Nat.repr n).toList.length = (Nat.repr n).length := rfl
  simp only [truncMarkerEnd, List.length_append, h1, h2, h3]
  omega

theorem maxContentDigits_cons (e : List Char) (rest : List (List Char)) :
    maxContentDigits (e :: rest) = max (contentDigits e) (maxContentDigits rest) := by
  simp [maxContentDigits]

theorem truncGo_total_le (budget : Nat) :
    ∀ (entries : List (List Char)) (total : Nat), total ≤ budget →
      total + sumTokens (truncGo budget entries total) ≤
        budget + (46 + maxContentDigits entries) / 3 := by
  intro entries
  induction entries with
  | nil =>
    intro total htot
    simp only [truncGo, sumTokens, List.map_nil, List.sum_nil, Nat.add_zero]
    exact le_trans htot (Nat.le_add_right _ _)
  | cons e rest ih =>
    intro total htot
    have hmaxtail : maxContentDigits rest ≤ maxContentDigits (e :: rest) := by
      rw [maxContentDigits_cons]; exact le_max_right _ _
    have hmaxhead : contentDigits e ≤ maxContentDigits (e :: rest) := by
      rw [maxContentDigits_cons]; exact le_max_left _ _
    have hmono : budget + (46 + maxContentDigits rest) / 3
        ≤ budget + (46 + maxContentDigits (e :: rest)) / 3 :=
      Nat.add_le_add_left (Nat.div_le_div_right (Nat.add_le_add_left hmaxtail _)) _
    cases hsplit : splitFirstColon e with
    | none =>
      have hstep : truncGo budget (e :: rest) total = truncGo budget rest total := by
        simp only [truncGo, hsplit]
      rw [hstep]
      exact le_trans (ih total htot) hmono
    | some fc =>
      obtain ⟨f, c⟩ := fc
      have hnc : ':' ∉ f := splitFirstColon_no_colon hsplit
      by_cases hfit : total + _estimate_tokens c ≤ budget
      · have hstep : truncGo budget (e :: rest) total
            = e :: truncGo budget rest (total + _estimate_tokens c) := by
          simp only [truncGo, hsplit]
          rw [if_pos hfit]
        rw [hstep]
        have hte : tokensOfEntry e = _estimate_tokens c := by
          simp [tokensOfEntry, hsplit, _estimate_tokens]
        have hsum : sumTokens (e :: truncGo budget rest (total + _estimate_tokens c))
            = tokensOfEntry e + sumTokens (truncGo budget rest (total + _estimate_tokens c)) := by
          simp [sumTokens]
        rw [hsum, hte, ← Nat.add_assoc]
        exact le_trans (ih _ hfit) hmono
      · by_cases hband : 100 < budget - total
        · by_cases hlen : (budget - total) * 3 < c.length
          · have hd : contentDigits e = (Nat.repr c.length).length := by
              simp [contentDigits, hsplit]
            by_cases hbig : 1000 < (budget - total) * 3
            · -- middle-marker truncation
              have hstep : truncGo budget (e :: rest) total
                  = [f ++ ':' :: (c.take ((budget - total) * 3 * 4 / 5)
                      ++ truncMarkerMid c.length
                      ++ c.drop (c.length - (budget - total) * 3 / 5))] := by
                simp only [truncGo, hsplit]
                rw [if_neg hfit, if_pos hband, if_pos hlen, if_pos hbig]
              rw [hstep]
              have hks : (budget - total) * 3 * 4 / 5 ≤ (budget - total) * 3 := by omega
              have hke : (budget - total) * 3 / 5 ≤ (budget - total) * 3 := by omega
              have hlentc : (c.take ((budget - total) * 3 * 4 / 5)
                  ++ truncMarkerMid c.length
                  ++ c.drop (c.length - (budget - total) * 3 / 5)).length
                  = (budget - total) * 3 * 4 / 5 + (46 + (Nat.repr c.length).length)
                    + (budget - total) * 3 / 5 := by
                simp only [List.length_append, List.length_take, List.length_drop,
                  truncMarkerMid_length]
                omega
              have hsum : sumTokens [f ++ ':' :: (c.take ((budget - total) * 3 * 4 / 5)
                  ++ truncMarkerMid c.length
                  ++ c.drop (c.length - (budget - total) * 3 / 5))]
                  = ((budget - total) * 3 * 4 / 5 + (46 + (Nat.repr c.length).length)
                    + (budget - total) * 3 / 5) / 3 := by
                simp only [sumTokens, List.map_cons, List.map_nil, List.sum_cons,
                  List.sum_nil, Nat.add_zero]
                rw [tokensOfEntry_mk f _ hnc, hlentc]
              rw [hsum]
              have hdD : (Nat.repr c.length).length ≤ maxContentDigits (e :: rest) := by
                rw [← hd]; exact hmaxhead
              omega
            · -- tail-marker truncation
              have hstep : truncGo budget (e :: rest) total
                  = [f ++ ':' :: (c.take ((budget - total) * 3)
                      ++ truncMarkerEnd c.length)] := by
                simp only [truncGo, hsplit]
                rw [if_neg hfit, if_pos hband, if_pos hlen, if_neg hbig]
              rw [hstep]
              have hlentc : (c.take ((budget - total) * 3)
                  ++ truncMarkerEnd c.length).length
                  = (budget - total) * 3 + (39 + (Nat.repr c.length).length) := by
                simp only [List.length_append, List.length_take, truncMarkerEnd_length]
                omega
              have hsum : sumTokens [f ++ ':' :: (c.take ((budget - total) * 3)
                  ++ truncMarkerEnd c.length)]
                  = ((budget - total) * 3 + (39 + (Nat.repr c.length).length)) / 3 := by
                simp only [sumTokens, List.map_cons, List.map_nil, List.sum_cons,
                  List.sum_nil, Nat.add_zero]
                rw [tokensOfEntry_mk f _ hnc, hlentc]
              rw [hsum]
              have hdD : (Nat.repr c.length).length ≤ maxContentDigits (e :: rest) := by
                rw [← hd]; exact hmaxhead
              omega
          · -- the whole content would fit: contradiction with hfit
            exfalso
            have h1 : c.length ≤ (budget - total) * 3 := Nat.le_of_not_lt hlen
            have h2 : ¬ (total + c.length / 3 ≤ budget) := by
              simpa [_estimate_tokens] using hfit
            omega
        · -- remaining budget too small: stop
          have hstep : truncGo budget (e :: rest) total = [] := by
            simp only [truncGo, hsplit]
            rw [if_neg hfit, if_neg hband]
          rw [hstep]
          simp only [sumTokens, List.map_nil, List.sum_nil, Nat.add_zero]
          exact le_trans htot (Nat.le_add_right _ _)

/-- C1 (confirmed): for every ordered list of `"path:content"` entries and
every token budget, the total estimated tokens (`floor(length / 3)`) of the
content parts of the sequence returned by `_truncate_files_to_token_budget`
exceeds the budget by at most the token estimate of the truncation marker
inserted into the final truncated entry — the marker's 46 fixed characters
plus the decimal digits of the original content length, divided by the
3-chars-per-token conversion.  This is exactly the rounding slack the claim
allows for. -/
theorem truncate_total_tokens_bounded (file_contents : List (List Char))
    (token_budget : Nat) :
    sumTokens (_truncate_files_to_token_budget file_contents token_budget) ≤
      token_budget + (46 + maxContentDigits file_contents) / 3 := by
  have h := truncGo_total_le token_budget file_contents 0 (Nat.zero_le _)
  simpa [_truncate_files_to_token_budget] using h

theorem truncGo_ordered_selection (budget : Nat) :
    ∀ (entries : List (List Char)) (total : Nat),
      ∃ pre ext, truncGo budget entries total = pre ++ ext ∧
        (∃ t, pre ++ t = entries.filter hasColon) ∧
        ext.length ≤ 1 ∧
        ∀ x ∈ ext, ∃ e ∈ entries, ∃ f c tc,
          splitFirstColon e = some (f, c) ∧ x = f ++ ':' :: tc := by
  intro entries
  induction entries with
  | nil =>
    intro total
    exact ⟨[], [], by simp [truncGo], ⟨[], by simp⟩, by simp, by simp⟩
  | cons e rest ih =>
    intro total
    cases hsplit : splitFirstColon e with
    | none =>
      have hfe : hasColon e = false := by simp [hasColon, hsplit]
      obtain ⟨pre, ext, heq, ⟨t, ht⟩, hlen, hsrc⟩ := ih total
      refine ⟨pre, ext, ?_, ⟨t, ?_⟩, hlen, ?_⟩
      · simp only [truncGo, hsplit]; exact heq
      · simp [List.filter_cons, hfe, ht]
      · intro x hx
        obtain ⟨e', he', rest'⟩ := hsrc x hx
        exact ⟨e', List.mem_cons_of_mem _ he', rest'⟩
    | some fc =>
      obtain ⟨f, c⟩ := fc
      have hfe : hasColon e = true := by simp [hasColon, hsplit]
      by_cases hfit : total + _estimate_tokens c ≤ budget
      · obtain ⟨pre, ext, heq, ⟨t, ht⟩, hlen, hsrc⟩ := ih (total + _estimate_tokens c)
        refine ⟨e :: pre, ext, ?_, ⟨t, ?_⟩, hlen, ?_⟩
        · simp only [truncGo, hsplit]
          rw [if_pos hfit, List.cons_append, heq]
        · simp [List.filter_cons, hfe, ht]
        · intro x hx
          obtain ⟨e', he', rest'⟩ := hsrc x hx
          exact ⟨e', List.mem_cons_of_mem _ he', rest'⟩
      · by_cases hband : 100 < budget - total
        · refine ⟨[], [f ++ ':' :: (if (budget - total) * 3 < c.length then
              if 1000 < (budget - total) * 3 then
                c.take ((budget - total) * 3 * 4 / 5) ++ truncMarkerMid c.length
                  ++ c.drop (c.length - (budget - total) * 3 / 5)
              else c.take ((budget - total) * 3) ++ truncMarkerEnd c.length
            else c)], ?_, ⟨e :: rest |>.filter hasColon, by simp⟩, by simp, ?_⟩
          · simp only [truncGo, hsplit]
            rw [if_neg hfit, if_pos hband]
            simp
          · intro x hx
            simp only [List.mem_singleton] at hx
            exact ⟨e, List.mem_cons_self _ _, f, c, _, hsplit, hx⟩
        · refine ⟨[], [], ?_, ⟨(e :: rest).filter hasColon, by simp⟩, by simp, by simp⟩
          simp only [truncGo, hsplit]
          rw [if_neg hfit, if_neg hband]
          simp

/-- C2 amended: the sequence returned by `_truncate_files_to_token_budget`
is an initial segment of the colon-containing entries of the input, in
input order, followed by at most one extra (truncated) entry whose path
comes from an input entry; malformed (separator-less) entries are skipped,
so the output is not in general an initial segment of the raw input. -/
theorem truncate_output_ordered_selection (file_contents : List (List Char))
    (token_budget : Nat) :
    ∃ pre ext,
      _truncate_files_to_token_budget file_contents token_budget = pre ++ ext ∧
      (∃ t, pre ++ t = file_contents.filter hasColon) ∧
      ext.length ≤ 1 ∧
      ∀ x ∈ ext, ∃ e ∈ file_contents, ∃ f c tc,
        splitFirstColon e = some (f, c) ∧ x = f ++ ':' :: tc :=
  truncGo_ordered_selection token_budget file_contents 0

/-- C2 counterexample: on the input `["x", "a:bb"]` with budget 100, the
returned sequence is `["a:bb"]`, which is not an initial segment of the
input, and the input entry `"x"` preceding the last returned entry does not
appear in the output — the claim as stated fails because separator-less
entries are skipped. -/
theorem truncate_not_initial_segment_of_input :
    _truncate_files_to_token_budget ["x".toList, "a:bb".toList] 100
        = ["a:bb".toList] ∧
    (¬ ∃ t, ["a:bb".toList] ++ t = ["x".toList, "a:bb".toList]) ∧
    "x".toList ∉ _truncate_files_to_token_budget ["x".toList, "a:bb".toList] 100 := by
  refine ⟨by decide, ?_, by decide⟩
  rintro ⟨t, ht⟩
  simp only [List.cons_append, List.nil_append] at ht
  have h1 : "a:bb".toList = "x".toList := (List.cons_eq_cons.mp ht).1
  exact absurd h1 (by decide)

/-- C3 (confirmed): once an entry's content does not fit whole within the
remaining budget, processing terminates — the loop's result is the same as
if no further entries existed, at most one (truncated) entry is emitted,
and that entry is the last element of the returned sequence; entries after
it are never admitted even when they would fit. -/
theorem truncation_stops_processing (budget total : Nat) (e : List Char)
    (f c : List Char) (rest : List (List Char))
    (hsplit : splitFirstColon e = some (f, c))
    (hover : budget < total + _estimate_tokens c) :
    truncGo budget (e :: rest) total = truncGo budget [e] total ∧
    (truncGo budget (e :: rest) total).length ≤ 1 := by
  have hfit : ¬ (total + _estimate_tokens c ≤ budget) := by omega
  constructor
  · simp only [truncGo, hsplit]
    rw [if_neg hfit, if_neg hfit]
  · simp only [truncGo, hsplit]
    rw [if_neg hfit]
    by_cases hband : 100 < budget - total
    · rw [if_pos hband]; simp
    · rw [if_neg hband]; simp

/-- Witness for C3 at a concrete input: the entry `"a:xyz"` (one estimated
token) does not fit a zero budget, so the entry `"b:q"` after it is
dropped even though it would fit. -/
theorem truncation_stops_processing_witness :
    splitFirstColon "a:xyz".toList = some ("a".toList, "xyz".toList) ∧
    0 < 0 + _estimate_tokens "xyz".toList ∧
    (truncGo 0 ["a:xyz".toList, "b:q".toList] 0 = truncGo 0 ["a:xyz".toList] 0 ∧
      (truncGo 0 ["a:xyz".toList, "b:q".toList] 0).length ≤ 1) :=
  ⟨by decide, by decide,
    truncation_stops_processing 0 0 "a:xyz".toList "a".toList "xyz".toList
      ["b:q".toList] (by decide) (by decide)⟩

/-- C4 amended: `_clean_json_response` raises exactly on empty input (the
distinct "empty response" error) and on non-empty input whose best-effort
recovery strips to nothing (the "empty content after cleaning" error, e.g.
whitespace-only input or an empty fenced block); on every other non-empty
input it returns non-empty extracted text without raising, and no other
failure path exists. -/
theorem clean_json_failure_modes (s : List Char) :
    (s = [] → _clean_json_response s = Except.error "Empty response from LLM") ∧
    (s ≠ [] →
      (∃ r, _clean_json_response s = Except.ok r ∧ r ≠ []) ∨
      _clean_json_response s
        = Except.error "Empty content after cleaning LLM response") := by
  constructor
  · intro h
    rw [h]
    rfl
  · intro hs
    simp only [_clean_json_response, if_neg hs]
    by_cases hc : cleanedContent s = []
    · right
      rw [if_pos hc]
    · left
      exact ⟨cleanedContent s, by rw [if_neg hc], hc⟩

/-- Witness for C4 amended at concrete inputs: the empty string raises the
"empty response" error, and `"ok"` succeeds with non-empty output. -/
theorem clean_json_failure_modes_witness :
    _clean_json_response [] = Except.error "Empty response from LLM" ∧
    ((∃ r, _clean_json_response ("ok".toList) = Except.ok r ∧ r ≠ []) ∨
      _clean_json_response ("ok".toList)
        = Except.error "Empty content after cleaning LLM response") :=
  ⟨(clean_json_failure_modes []).1 rfl,
    (clean_json_failure_modes ("ok".toList)).2 (by decide)⟩

/-- C4 counterexample: the whitespace-only input `"   "` is non-empty, yet
`_clean_json_response` raises (the "empty content after cleaning" error) —
so the claim that every non-empty input never raises is false. -/
theorem clean_json_raises_on_whitespace :
    "   ".toList ≠ [] ∧
    _clean_json_response ("   ".toList)
      = Except.error "Empty content after cleaning LLM response" := by
  exact ⟨by decide, by rfl⟩

/-- C6 (confirmed): on the json-tagged fenced block around `\x7b"a":1\x7d`,
`_clean_json_response` returns exactly the inner content — the fenced code
block is tried first and its inner capture returned. -/
theorem clean_json_extracts_fenced_block :
    _clean_json_response ("```json\n\x7b\"a\":1\x7d\n```".toList)
      = Except.ok ("\x7b\"a\":1\x7d".toList) := by
  rfl

theorem isPySpace_ne (c : Char) (h : isPySpace c = true) :
    c ≠ '{' ∧ c ≠ '}' ∧ c ≠ '[' ∧ c ≠ ']' ∧ c ≠ '`' := by
  simp only [isPySpace, Bool.or_eq_true, decide_eq_true_eq] at h
  rcases h with ((((h | h) | h) | h) | h) | h <;> subst h <;> refine ⟨?_, ?_, ?_, ?_, ?_⟩ <;> decide

theorem firstFenceCapture_eq_none (s : List Char) (h : ∀ c ∈ s, c ≠ '`') :
    firstFenceCapture s = none := by
  induction s with
  | nil => rfl
  | cons c rest ih =>
    have hc : c ≠ '`' := h c (List.mem_cons_self _ _)
    have hstart : startsWithL (c :: rest) ("```".toList) = false := by
      simp [show ("```".toList) = '`' :: '`' :: '`' :: [] from rfl, startsWithL, hc]
    simp only [firstFenceCapture, hstart, Bool.false_eq_true, if_false]
    exact ih (fun x hx => h x (List.mem_cons_of_mem _ hx))

theorem firstJsonSpan_append (a u : List Char)
    (h : ∀ c ∈ a, c ≠ '{' ∧ c ≠ '[') :
    firstJsonSpan (a ++ u) = firstJsonSpan u := by
  induction a with
  | nil => simp
  | cons c a' ih =>
    have h1 : c ≠ '{' := (h c (List.mem_cons_self _ _)).1
    have h2 : c ≠ '[' := (h c (List.mem_cons_self _ _)).2
    simp only [List.cons_append, firstJsonSpan]
    rw [if_neg (fun hh => h1 hh.1), if_neg (fun hh => h2 hh.1)]
    exact ih (fun x hx => h x (List.mem_cons_of_mem _ hx))

theorem dropWhile_append_of_all {p : Char → Bool} (xs ys : List Char)
    (h : ∀ x ∈ xs, p x = true) :
    (xs ++ ys).dropWhile p = ys.dropWhile p := by
  induction xs with
  | nil => simp
  | cons x xs' ih =>
    have hx : p x = true := h x (List.mem_cons_self _ _)
    simp only [List.cons_append, List.dropWhile_cons, hx, if_true]
    exact ih (fun y hy => h y (List.mem_cons_of_mem _ hy))

theorem takeUpToLast_append_last (ch : Char) (m b : List Char)
    (hb : ∀ c ∈ b, c ≠ ch) :
    takeUpToLast ch ((m ++ [ch]) ++ b) = m ++ [ch] := by
  have hrev : ((m ++ [ch]) ++ b).reverse = b.reverse ++ (ch :: m.reverse) := by
    simp
  have hall : ∀ x ∈ b.reverse, (decide (x ≠ ch)) = true := by
    intro x hx
    simp only [decide_eq_true_eq]
    exact hb x (List.mem_reverse.mp hx)
  have hdrop : (b.reverse ++ (ch :: m.reverse)).dropWhile (fun c => c ≠ ch)
      = ch :: m.reverse := by
    rw [dropWhile_append_of_all _ _ hall]
    simp [List.dropWhile_cons]
  simp only [takeUpToLast, hrev, hdrop]
  simp

theorem stripWs_decomp (s : List Char) :
    ∃ a b, s = a ++ stripWs s ++ b ∧
      (∀ c ∈ a, isPySpace c = true) ∧ (∀ c ∈ b, isPySpace c = true) := by
  refine ⟨s.takeWhile isPySpace,
    ((s.dropWhile isPySpace).reverse.takeWhile isPySpace).reverse, ?_, ?_, ?_⟩
  · have h2 : (s.dropWhile isPySpace).reverse.takeWhile isPySpace
        ++ (s.dropWhile isPySpace).reverse.dropWhile isPySpace
        = (s.dropWhile isPySpace).reverse :=
      List.takeWhile_append_dropWhile (p := isPySpace)
        (l := (s.dropWhile isPySpace).reverse)
    have h4 := congrArg List.reverse h2
    simp only [List.reverse_append, List.reverse_reverse] at h4
    have h3 : s.dropWhile isPySpace = stripWs s
        ++ ((s.dropWhile isPySpace).reverse.takeWhile isPySpace).reverse :=
      h4.symm
    calc s = s.takeWhile isPySpace ++ s.dropWhile isPySpace :=
          (List.takeWhile_append_dropWhile (p := isPySpace) (l := s)).symm
      _ = s.takeWhile isPySpace ++ (stripWs s
            ++ ((s.dropWhile isPySpace).reverse.takeWhile isPySpace).reverse) :=
          congrArg _ h3
      _ = s.takeWhile isPySpace ++ stripWs s
            ++ ((s.dropWhile isPySpace).reverse.takeWhile isPySpace).reverse :=
          (List.append_assoc _ _ _).symm
  · intro c hc
    exact List.mem_takeWhile_imp hc
  · intro c hc
    exact List.mem_takeWhile_imp (List.mem_reverse.mp hc)

theorem stripWs_fixed_of_ends (x y : Char) (m : List Char)
    (hx : isPySpace x = false) (hy : isPySpace y = false) :
    stripWs (x :: (m ++ [y])) = x :: (m ++ [y]) := by
  have h1 : (x :: (m ++ [y])).dropWhile isPySpace = x :: (m ++ [y]) := by
    simp [List.dropWhile_cons, hx]
  have h2 : (x :: (m ++ [y])).reverse = y :: (m.reverse ++ [x]) := by
    simp
  have h3 : (y :: (m.reverse ++ [x])).dropWhile isPySpace
      = y :: (m.reverse ++ [x]) := by
    simp [List.dropWhile_cons, hy]
  simp only [stripWs, h1, h2, h3]
  simp

theorem firstJsonSpan_cons_brace (m b : List Char) :
    firstJsonSpan ('{' :: ((m ++ ['}']) ++ b))
      = some ('{' :: takeUpToLast '}' ((m ++ ['}']) ++ b)) := by
  simp only [firstJsonSpan]
  rw [if_pos (by simp)]

theorem firstJsonSpan_cons_bracket (m b : List Char) :
    firstJsonSpan ('[' :: ((m ++ [']']) ++ b))
      = some ('[' :: takeUpToLast ']' ((m ++ [']']) ++ b)) := by
  simp only [firstJsonSpan]
  rw [if_neg (by simp), if_pos (by simp)]

/-- C5 amended: `_clean_json_response` is the identity (up to `strip()`) on
already-clean parseable JSON objects and arrays — inputs with no backtick
whose stripped text starts with `\x7b` and ends with `\x7d` (or `[` … `]`).
The restriction is forced by the counterexamples: a scalar JSON string
such as `"\x7b\x7d"` has its inner brace span extracted, and a JSON object
containing a triple-backtick fence inside a string literal has the fence
contents extracted. -/
theorem clean_json_id_on_clean_objects (s : List Char)
    (hbt : ∀ c ∈ s, c ≠ '`')
    (hshape : (∃ m, stripWs s = '{' :: (m ++ ['}'])) ∨
      (∃ m, stripWs s = '[' :: (m ++ [']']))) :
    _clean_json_response s = Except.ok (stripWs s) := by
  have hs : s ≠ [] := by
    intro h
    rcases hshape with ⟨m, hm⟩ | ⟨m, hm⟩ <;> rw [h] at hm <;> simp [stripWs] at hm
  have hfence : firstFenceCapture s = none := firstFenceCapture_eq_none s hbt
  obtain ⟨a, b, hdec, ha, hb⟩ := stripWs_decomp s
  have hspan : firstJsonSpan s = some (stripWs s) := by
    rcases hshape with ⟨m, hm⟩ | ⟨m, hm⟩
    · rw [hm] at hdec
      have hstep : firstJsonSpan s = firstJsonSpan (('{' :: (m ++ ['}'])) ++ b) := by
        conv_lhs => rw [hdec, List.append_assoc]
        exact firstJsonSpan_append a _
          (fun c hc => ⟨(isPySpace_ne c (ha c hc)).1, (isPySpace_ne c (ha c hc)).2.2.1⟩)
      rw [hstep, show ('{' :: (m ++ ['}'])) ++ b = '{' :: ((m ++ ['}']) ++ b) from by simp,
        firstJsonSpan_cons_brace,
        takeUpToLast_append_last '}' m b
          (fun c hc => (isPySpace_ne c (hb c hc)).2.1), hm]
    · rw [hm] at hdec
      have hstep : firstJsonSpan s = firstJsonSpan (('[' :: (m ++ [']'])) ++ b) := by
        conv_lhs => rw [hdec, List.append_assoc]
        exact firstJsonSpan_append a _
          (fun c hc => ⟨(isPySpace_ne c (ha c hc)).1, (isPySpace_ne c (ha c hc)).2.2.1⟩)
      rw [hstep, show ('[' :: (m ++ [']'])) ++ b = '[' :: ((m ++ [']']) ++ b) from by simp,
        firstJsonSpan_cons_bracket,
        takeUpToLast_append_last ']' m b
          (fun c hc => (isPySpace_ne c (hb c hc)).2.2.2.1), hm]
  have hclean : cleanedContent s = stripWs s := by
    simp only [cleanedContent, hfence, hspan]
    rcases hshape with ⟨m, hm⟩ | ⟨m, hm⟩
    · rw [hm]
      exact stripWs_fixed_of_ends '{' '}' m (by decide) (by decide)
    · rw [hm]
      exact stripWs_fixed_of_ends '[' ']' m (by decide) (by decide)
  have hne' : stripWs s ≠ [] := by
    rcases hshape with ⟨m, hm⟩ | ⟨m, hm⟩ <;> rw [hm] <;> simp
  simp only [_clean_json_response, if_neg hs, hclean, if_neg hne']

/-- Witness for C5 amended at a concrete input: the already-clean JSON
object `" \x7b"a":1\x7d "` (with surrounding whitespace) is returned
exactly as its stripped self. -/
theorem clean_json_id_on_clean_objects_witness :
    (∀ c ∈ (" \x7b\"a\":1\x7d ".toList), c ≠ '`') ∧
    stripWs (" \x7b\"a\":1\x7d ".toList) = '{' :: ("\"a\":1".toList ++ ['}']) ∧
    _clean_json_response (" \x7b\"a\":1\x7d ".toList)
      = Except.ok (stripWs (" \x7b\"a\":1\x7d ".toList)) :=
  ⟨by decide, by decide,
    clean_json_id_on_clean_objects (" \x7b\"a\":1\x7d ".toList) (by decide)
      (Or.inl ⟨"\"a\":1".toList, by decide⟩)⟩

/-- C5 counterexample: `"\x7b\x7d"` (a four-character JSON string literal
containing a brace pair — valid, already-clean JSON) is not returned
stripped: the extractor returns the inner `\x7b\x7d` span instead.  And the
valid JSON object `\x7b"a": "```x```"\x7d` (a fence inside a string
literal) yields `x`. -/
theorem clean_json_not_idempotent_on_clean_json :
    _clean_json_response ("\"\x7b\x7d\"".toList) = Except.ok ("\x7b\x7d".toList) ∧
    stripWs ("\"\x7b\x7d\"".toList) = "\"\x7b\x7d\"".toList ∧
    ("\x7b\x7d".toList : List Char) ≠ "\"\x7b\x7d\"".toList ∧
    _clean_json_response ("\x7b\"a\": \"```x```\"\x7d".toList)
      = Except.ok ("x".toList) :=
  ⟨by rfl, by decide, by decide, by rfl⟩

/-- C8 counterexample: a path with extension `cpp` — which the claim's
table covers — yields no language: the code's table stops at
js/jsx/mjs/ts/tsx/py/rs/go/java, so `cpp` (like cc/cxx/cs/php/rb) falls
through to "no language". -/
theorem cpp_yields_no_language :
    classifyLang ("main.cpp".toList) = none ∧
    detect_languages_from_files ["main.cpp".toList] = ∅ := by
  constructor
  · rfl
  · decide

/-- C8 amended: the classifier maps a path's extension through the fixed
table js/jsx/mjs→JavaScript, ts/tsx→TypeScript, py→Python, rs→Rust,
go→Go, java→Java (`specLanguageTable`, stated per the spec's
table-lookup formulation), and every extension outside that table —
including cpp, cc, cxx, cs, php and rb — yields no language rather than
an error. -/
theorem classifyLang_matches_spec_table (p : List Char) :
    classifyLang p = List.lookup (extOf p) specLanguageTable := by
  unfold classifyLang specLanguageTable
  generalize extOf p = e
  by_cases h1 : e = ['j', 's']
  · subst h1; rfl
  by_cases h2 : e = ['j', 's', 'x']
  · subst h2; rfl
  by_cases h3 : e = ['m', 'j', 's']
  · subst h3; rfl
  by_cases h4 : e = ['t', 's']
  · subst h4; rfl
  by_cases h5 : e = ['t', 's', 'x']
  · subst h5; rfl
  by_cases h6 : e = ['p', 'y']
  · subst h6; rfl
  by_cases h7 : e = ['r', 's']
  · subst h7; rfl
  by_cases h8 : e = ['g', 'o']
  · subst h8; rfl
  by_cases h9 : e = ['j', 'a', 'v', 'a']
  · subst h9; rfl
  simp [List.lookup_cons, h1, h2, h3, h4, h5, h6, h7, h8, h9,
    beq_false_of_ne h1, beq_false_of_ne h2, beq_false_of_ne h3,
    beq_false_of_ne h4, beq_false_of_ne h5, beq_false_of_ne h6,
    beq_false_of_ne h7, beq_false_of_ne h8, beq_false_of_ne h9]

/-- C7 (confirmed, spec-modelled): before content capture begins, the
Dockerfile extractor's line filter skips fence lines, lines containing a
known explanatory phrase, and lines not starting (trimmed) with a
recognized instruction keyword; capture begins exactly at the first line
whose trimmed form starts with a keyword from FROM/RUN/COPY/ADD/WORKDIR/
EXPOSE/CMD/ENTRYPOINT/ENV/ARG/LABEL/USER/VOLUME/HEALTHCHECK, which
becomes the first captured line. -/
theorem dockerfile_capture_starts_at_first_keyword (pre : List (List Char))
    (line : List Char) (rest : List (List Char))
    (hpre : ∀ l ∈ pre,
      isFenceLine l = true ∨ lineHasExplan l = true ∨ lineStartsInstr l = false)
    (hfence : isFenceLine line = false) (hexp : lineHasExplan line = false)
    (hinstr : lineStartsInstr line = true) :
    dockerCaptureGo false (pre ++ line :: rest)
      = line :: dockerCaptureGo true rest := by
  induction pre with
  | nil =>
    simp [dockerCaptureGo, hfence, hexp, hinstr]
  | cons l pre' ih =>
    have hskip : dockerCaptureGo false ((l :: pre') ++ line :: rest)
        = dockerCaptureGo false (pre' ++ line :: rest) := by
      rcases hpre l (List.mem_cons_self _ _) with h | h | h
      · simp [dockerCaptureGo, h]
      · by_cases hf : isFenceLine l <;> simp [dockerCaptureGo, hf, h]
      · by_cases hf : isFenceLine l
        · simp [dockerCaptureGo, hf]
        · by_cases he : lineHasExplan l <;> simp [dockerCaptureGo, hf, he, h]
    rw [hskip]
    exact ih (fun x hx => hpre x (List.mem_cons_of_mem _ hx))

/-- Witness for C7 at a concrete input: the prose line
`"Here is your Dockerfile:"` is skipped (it contains "here is") and
capture begins at `"FROM node:18"`. -/
theorem dockerfile_capture_starts_at_first_keyword_witness :
    (∀ l ∈ [("Here is your Dockerfile:".toList)],
      isFenceLine l = true ∨ lineHasExplan l = true ∨ lineStartsInstr l = false) ∧
    isFenceLine ("FROM node:18".toList) = false ∧
    lineHasExplan ("FROM node:18".toList) = false ∧
    lineStartsInstr ("FROM node:18".toList) = true ∧
    dockerCaptureGo false
        (["Here is your Dockerfile:".toList]
          ++ "FROM node:18".toList :: ["RUN npm ci".toList])
      = "FROM node:18".toList :: dockerCaptureGo true ["RUN npm ci".toList] :=
  ⟨by decide, by decide, by decide, by decide,
    dockerfile_capture_starts_at_first_keyword
      ["Here is your Dockerfile:".toList] ("FROM node:18".toList)
      ["RUN npm ci".toList] (by decide) (by decide) (by decide) (by decide)⟩

/-- C9 (confirmed): whenever the LLM file-selection step fails — null or
empty response content, an extraction error, a JSON decode failure, or a
decoded value that is not a list of strings — `select_important_files`
returns exactly the deterministic pattern-based fallback selection; the
single abstracted response value is consumed once, so no retry of the
text-generation call occurs. -/
theorem select_files_falls_back_without_retry
    (llmResponse : Option (List Char)) (jsonLoads : List Char → Option PyJson)
    (tree_structure : List Char) (analysis : List (List Char × List Char))
    (hfail : llmResponse = none ∨ llmResponse = some [] ∨
      (∃ raw, llmResponse = some raw ∧
        ((∃ msg, _clean_json_response raw = Except.error msg) ∨
         (∃ cleaned, _clean_json_response raw = Except.ok cleaned ∧
           (jsonLoads cleaned = none ∨
            ∃ j, jsonLoads cleaned = some j ∧ asStringList j = none))))) :
    select_important_files llmResponse jsonLoads tree_structure analysis
      = _fallback_file_selection tree_structure analysis := by
  rcases hfail with h | h | ⟨raw, hr, hcase⟩
  · rw [h]; rfl
  · rw [h]; rfl
  · rw [hr]
    by_cases hraw : raw = []
    · simp [select_important_files, hraw]
    · rcases hcase with ⟨msg, hmsg⟩ | ⟨cleaned, hok, hparse⟩
      · simp [select_important_files, hraw, hmsg]
      · rcases hparse with hpn | ⟨j, hj, hshape⟩
        · simp [select_important_files, hraw, hok, hpn]
        · simp [select_important_files, hraw, hok, hj, hshape]

/-- Witness for C9 at a concrete input: the response `"hello"` extracts to
`"hello"`, which fails JSON decoding, so the result is the pattern-based
fallback on the given tree. -/
theorem select_files_falls_back_without_retry_witness :
    select_important_files (some ("hello".toList)) (fun _ => none)
        ("t\n└── main.py".toList) []
      = _fallback_file_selection ("t\n└── main.py".toList) [] :=
  select_files_falls_back_without_retry _ _ _ _
    (Or.inr (Or.inr ⟨"hello".toList, rfl,
      Or.inr ⟨"hello".toList, by rfl, Or.inl rfl⟩⟩))

/-- C10 (confirmed): for every tree structure and analysis input, the
pattern-based fallback selection returns at most 20 paths with no
duplicates (`list(set(selected))[:20]`). -/
theorem fallback_selection_short_and_nodup (tree_structure : List Char)
    (analysis : List (List Char × List Char)) :
    (_fallback_file_selection tree_structure analysis).length ≤ 20 ∧
    (_fallback_file_selection tree_structure analysis).Nodup := by
  constructor
  · simp only [_fallback_file_selection]
    rw [List.length_take]
    exact min_le_left _ _
  · exact List.Nodup.sublist (List.take_sublist _ _) (List.nodup_dedup _)
